import Mathlib

/-!
Verification of the qwlist sequence-processing library (src/src/qwlist/qwlist.py and
src/src/qwlist/eager.py) against its natural-language specification.

The embedding models a Python iterator over a finite sequence as the Lean list of its
not-yet-consumed elements.  A generator-based pipeline stage is translated as a recursive
function that drains the stage, and — where a claim is about consumption (frame effects) —
the function additionally returns the number of elements it pulled from the wrapped source.
Code that can raise (assert statements) is translated into Except, with the error message
taken from the source.  Call-time behaviour (the statements of a method body that run
before the inner generator is first pulled) is modelled by separate functions named
...Call..., distinct from the drain functions that model exhausting the returned Lazy.
-/

namespace QwSpec

universe u

variable {T : Type u}

/-- Embeds the generator inside Lazy.take and QList.take:

    def inner():
        for i, elem in enumerate(self.gen):
            if i >= n:
                return None
            yield elem

The result is the pair of (elements yielded, number of elements pulled from the wrapped
source) when the returned Lazy is drained.  Note that the for/enumerate loop pulls the
element at index i from the source before testing i >= n, so reaching the cut-off costs
one extra pull. -/
def takeRun (n : Int) : List T → Int → List T × Nat
  | [], _ => ([], 0)
  | x :: xs, i =>
    if n ≤ i then ([], 1)
    else
      let r := takeRun n xs (i + 1)
      (x :: r.1, r.2 + 1)

/-- Elements produced by collecting take(n) over source src (enumerate starts at 0). -/
def takeCollect (n : Int) (src : List T) : List T :=
  (takeRun n src 0).1

/-- Number of elements of the underlying source consumed by collecting take(n). -/
def takePulled (n : Int) (src : List T) : Nat :=
  (takeRun n src 0).2

/-- Embeds EagerQList.get (src/src/qwlist/eager.py) — identical body in QList.get:

    if index < 0 or index >= self.len():
        return default
    return self[index]

The Python call returns either the passed default or the element; we model the default
slot as an Option so that the common call get(i) (default None) is default = none. -/
def eagerGet (l : List T) (index : Int) (default : Option T) : Option T :=
  if index < 0 ∨ (l.length : Int) ≤ index then default else l.get? index.toNat

/-- Embeds QList.get (src/src/qwlist/qwlist.py), whose body is identical to
EagerQList.get. -/
def qlistGet (l : List T) (index : Int) (default : Option T) : Option T :=
  if index < 0 ∨ (l.length : Int) ≤ index then default else l.get? index.toNat

/-- Embeds the linear scan of Lazy.get: for i, elem in self.enumerate(): if i == index:
return elem; falling through returns default. -/
def lazyGetScan (index : Nat) (default : Option T) : List T → Nat → Option T
  | [], _ => default
  | x :: xs, i => if i = index then some x else lazyGetScan index default xs (i + 1)

/-- Embeds Lazy.get (src/src/qwlist/qwlist.py):

    if index < 0:
        return default
    for i, elem in self.enumerate():
        if i == index:
            return elem
    return default -/
def lazyGet (l : List T) (index : Int) (default : Option T) : Option T :=
  if index < 0 then default else lazyGetScan index.toNat default l 0

/-- Embeds Lazy.sum (src/src/qwlist/qwlist.py):

    it = self.iter()
    acc = None
    try:
        acc = next(it)
    except StopIteration:
        return acc
    for elem in it:
        acc = acc + elem
    return acc

The result type Except String (Option A) records that the method body has no raise path:
it returns the sentinel None (here .ok none) on an empty source and otherwise folds
addition over the tail with the head as seed. -/
def lazySum {A : Type u} [Add A] : List A → Except String (Option A)
  | [] => .ok none
  | x :: xs => .ok (some (xs.foldl (· + ·) x))

/-- Embeds EagerQList.sum (src/src/qwlist/eager.py), whose body is identical to
Lazy.sum. -/
def eagerSum {A : Type u} [Add A] : List A → Except String (Option A)
  | [] => .ok none
  | x :: xs => .ok (some (xs.foldl (· + ·) x))

/-- Result of the statements of Lazy.merge (src/src/qwlist/qwlist.py, lines 427-437)
that run at call time, before the returned Lazy is first pulled:

    it1 = iter(self)
    it2 = iter(other)
    try:
        elem1 = next(it1)
    except StopIteration:
        return Lazy(it2)
    try:
        elem2 = next(it2)
    except StopIteration:
        return Lazy([elem1]).chain(it1)
    ... return Lazy(inner())

Each constructor records the holdover elements already pulled and the remaining
(unconsumed) parts of the two iterators at the moment the method returns. -/
inductive MergeCall (T : Type u) where
  | emptyLeft (it2 : List T)
  | emptyRight (elem1 : T) (it1 : List T)
  | both (elem1 elem2 : T) (it1 it2 : List T)

/-- Call-time part of Lazy.merge / QList.merge (identical bodies). -/
def mergeCall : List T → List T → MergeCall T
  | [], b => .emptyLeft b
  | a1 :: arest, [] => .emptyRight a1 arest
  | a1 :: arest, b1 :: brest => .both a1 b1 arest brest

/-- Number of elements consumed from (receiver, other) by the call-time part of merge,
measured as the difference between each source's length and its unconsumed remainder. -/
def mergeCallConsumed (a b : List T) : Nat × Nat :=
  match mergeCall a b with
  | .emptyLeft _ => (0, 0)
  | .emptyRight _ it1 => (a.length - it1.length, 0)
  | .both _ _ it1 it2 => (a.length - it1.length, b.length - it2.length)

/-- Embeds the generator inner() of Lazy.merge / QList.merge: left and right are the
current holdover elements, it1 and it2 the remaining iterators.  If merger(left, right)
yields left and advances it1 (on exhaustion yields right then drains it2), else
symmetrically. -/
def mergeInner (merger : T → T → Bool) (left right : T) (it1 it2 : List T) : List T :=
  if merger left right then
    match it1 with
    | [] => left :: right :: it2
    | x :: xs => left :: mergeInner merger x right xs it2
  else
    match it2 with
    | [] => right :: left :: it1
    | y :: ys => right :: mergeInner merger left y it1 ys
termination_by it1.length + it2.length

/-- Draining the Lazy returned by merge: the call-time part followed by inner() (or the
early-return shapes Lazy(it2) and Lazy([elem1]).chain(it1)). -/
def mergeDrain (merger : T → T → Bool) (a b : List T) : List T :=
  match mergeCall a b with
  | .emptyLeft it2 => it2
  | .emptyRight e1 it1 => e1 :: it1
  | .both e1 e2 it1 it2 => mergeInner merger e1 e2 it1 it2

/-- Call-time part of Lazy.filter: the method body only defines the generator inner()
(which captures pred and self.gen) and wraps it in Lazy; nothing is pulled from the
source, which is returned here in full as the unconsumed remainder. -/
def filterCallRemaining (_pred : T → Bool) (src : List T) : List T :=
  src

/-- Call-time part of Lazy.batch (QList.batch is identical):

    assert size > 0, f'batch size must be greater then 0 but got (size)'

followed by the definition of inner() — which pulls nothing until drained.  Returns the
untouched source on success and the AssertionError message on a non-positive size. -/
def lazyBatchCall (size : Int) (src : List T) : Except String (List T) :=
  if size > 0 then .ok src
  else .error ("batch size must be greater then 0 but got " ++ toString size)

/-- Call-time part of Lazy.window (QList.window is identical):

    assert window_size > 0, f'window size must be greater than 0 but got (window_size).'

followed by the definition of inner(); nothing is pulled until drained. -/
def lazyWindowCall (window_size : Int) (src : List T) : Except String (List T) :=
  if window_size > 0 then .ok src
  else .error ("window size must be greater than 0 but got " ++ toString window_size ++ ".")

/-- Embeds the generator inner() of Lazy.batch:

    group = QList()
    for i, elem in enumerate(self.gen, start=1):
        group.append(elem)
        if i % size == 0:
            yield group
            group = QList()
    if group:
        yield group -/
def lazyBatchGo (size : Int) : List T → List T → Int → List (List T)
  | [], group, _ => if group.isEmpty then [] else [group]
  | x :: xs, group, i =>
    if i % size = 0 then (group ++ [x]) :: lazyBatchGo size xs [] (i + 1)
    else lazyBatchGo size xs (group ++ [x]) (i + 1)

/-- Draining the Lazy returned by Lazy.batch (enumerate starts at 1). -/
def lazyBatchDrain (size : Int) (src : List T) : List (List T) :=
  lazyBatchGo size src [] 1

/-- Embeds the generator inner() of QList.batch:

    for i in range(0, self.len(), size):
        yield QList(self[i:i+size])

unrolled as successive take/drop slices; the size <= 0 branch is unreachable behind the
call-time assert (range would reject a zero step). -/
def qlistBatchDrain (size : Int) : List T → List (List T)
  | [] => []
  | x :: xs =>
    if size ≤ 0 then []
    else (x :: xs).take size.toNat :: qlistBatchDrain size ((x :: xs).drop size.toNat)
termination_by l => l.length
decreasing_by simp [List.length_drop]; omega

/-- Embeds Lazy.flatmap: for elem in self.gen: yield from mapper(elem). -/
def lazyFlatmap {K : Type u} (mapper : T → List K) (src : List T) : List K :=
  src.flatMap mapper

/-- IsInterleave a b c states that c is an interleaving of a and b: every element of c
comes from exactly one of a and b, and the elements of a (and of b) appear in c in their
original relative order. -/
inductive IsInterleave : List T → List T → List T → Prop where
  | nil : IsInterleave [] [] []
  | left {a b c : List T} {x : T} :
      IsInterleave a b c → IsInterleave (x :: a) b (x :: c)
  | right {a b c : List T} {y : T} :
      IsInterleave a b c → IsInterleave a (y :: b) (y :: c)

/-- Embeds the replay phase of the generator inner() of Lazy.cycle / QList.cycle:

    while saved:
        for elem in saved:
            yield elem

restricted to its first n yields (the consumer stops pulling after n): rem is the not-yet
replayed remainder of the current pass over saved; when a pass ends the while loop starts
the next pass over saved (or terminates if saved is empty). -/
def replayN (saved : List T) : List T → Nat → List T
  | _, 0 => []
  | y :: ys, n + 1 => y :: replayN saved ys n
  | [], n + 1 =>
    match saved with
    | [] => []
    | s :: ss => s :: replayN saved ss n

/-- Embeds the first phase of the generator inner() of Lazy.cycle / QList.cycle:

    saved = []
    for elem in self.gen:
        saved.append(elem)
        yield elem

restricted to its first n yields, falling through to the replay phase when the source is
exhausted. -/
def cycleFirst : List T → List T → Nat → List T
  | _, _, 0 => []
  | x :: xs, saved, n + 1 => x :: cycleFirst xs (saved ++ [x]) n
  | [], saved, n + 1 => replayN saved saved (n + 1)

/-- Collecting cycle().take(k) over source S: take(k) yields the first k elements pulled
from the cycle generator (or all of them if the cycle generator terminates first, which
happens only for empty S). -/
def cycleTakeCollect (S : List T) (k : Nat) : List T :=
  cycleFirst S [] k

/-- Embeds the loop of the generator inner() of Lazy.batch_by: batch is the group under
construction, key its common grouper output:

    for elem in it:
        new_key = grouper(elem)
        if new_key == key:
            batch.append(elem)
        else:
            yield batch
            batch = QList([elem])
            key = new_key
    yield batch -/
def batchByGo {K : Type u} [DecidableEq K] (grouper : T → K) :
    List T → K → List T → List (List T)
  | [], _, batch => [batch]
  | elem :: rest, key, batch =>
    if grouper elem = key then batchByGo grouper rest key (batch ++ [elem])
    else batch :: batchByGo grouper rest (grouper elem) [elem]

/-- Draining Lazy.batch_by: the generator first pulls one element (returning no group on
an empty source) and seeds the first batch with it. -/
def lazyBatchBy {K : Type u} [DecidableEq K] (grouper : T → K) : List T → List (List T)
  | [] => []
  | first :: rest => batchByGo grouper rest (grouper first) [first]

/-- Embeds the loop of the generator inner() of QList.batch_by, identical to the Lazy
version except for the final guard:

    if batch:
        yield batch -/
def batchByGoQ {K : Type u} [DecidableEq K] (grouper : T → K) :
    List T → K → List T → List (List T)
  | [], _, batch => if batch.isEmpty then [] else [batch]
  | elem :: rest, key, batch =>
    if grouper elem = key then batchByGoQ grouper rest key (batch ++ [elem])
    else batch :: batchByGoQ grouper rest (grouper elem) [elem]

/-- Draining QList.batch_by: seeded with self[0] when the list is nonempty. -/
def qlistBatchBy {K : Type u} [DecidableEq K] (grouper : T → K) : List T → List (List T)
  | [] => []
  | first :: rest => batchByGoQ grouper rest (grouper first) [first]

/-- Model of the dynamically typed values full_flatten operates over: integers stand for
the atomic (non-iterable, non-string) elements, strings are lists of characters, and
lists are the nested iterables. -/
inductive PyVal where
  | int : Int → PyVal
  | str : List Char → PyVal
  | list : List PyVal → PyVal

/-- Runtime types usable as the preserve_type argument of full_flatten. -/
inductive PyTy where
  | str
  | list
deriving DecidableEq

/-- Model of isinstance(elem, t) for the types of the PyVal universe. -/
def pyIsinstance : PyVal → PyTy → Bool
  | .str _, .str => true
  | .list _, .list => true
  | _, _ => false

/-- Model of the guard preserve_type is not None and isinstance(elem, preserve_type). -/
def pyPreserves (preserve_type : Option PyTy) (v : PyVal) : Bool :=
  match preserve_type with
  | none => false
  | some t => pyIsinstance v t

/-- Unfolding of the recursive call yield from Lazy(elem).full_flatten(...) when elem is
a string: iterating a Python string yields its characters as length-1 strings, and every
branch of the dispatch yields a length-1 string unchanged (if preserve_type matches str
it is yielded by the first branch; otherwise it is a str of length 1, yielded whole both
with break_str true and with break_str false).  So the call contributes exactly the
characters as one-character strings. -/
def fullFlattenStr (s : List Char) : List PyVal :=
  s.map (fun c => PyVal.str [c])

/-- Embeds the generator inner() of Lazy.full_flatten (identical in QList.full_flatten
and EagerQList.full_flatten):

    for elem in self.gen:
        if preserve_type is not None and isinstance(elem, preserve_type):
            yield elem
        elif isinstance(elem, str):
            if break_str:
                if len(elem) == 1:
                    yield elem
                else:
                    yield from Lazy(elem).full_flatten(break_str, preserve_type)
            else:
                yield elem
        elif isinstance(elem, Iterable):
            yield from Lazy(elem).full_flatten(break_str, preserve_type)
        else:
            yield elem -/
def fullFlatten (break_str : Bool) (preserve_type : Option PyTy) : List PyVal → List PyVal
  | [] => []
  | elem :: rest =>
    (if pyPreserves preserve_type elem then [elem]
     else
       match elem with
       | .str s =>
         if break_str then
           (if s.length = 1 then [PyVal.str s] else fullFlattenStr s)
         else [PyVal.str s]
       | .list xs => fullFlatten break_str preserve_type xs
       | .int m => [PyVal.int m]) ++ fullFlatten break_str preserve_type rest
termination_by l => sizeOf l

theorem getD_take_of_lt (l : List T) (n i : Nat) (d : T) (h : i < n) :
    (l.take n).getD i d = l.getD i d := by
  rw [List.getD_eq_getD_get?, List.getD_eq_getD_get?, List.get?_take h]

theorem replayN_eq_take_append (S rem : List T) (n : Nat) :
    replayN S rem n = rem.take n ++ replayN S S (n - rem.length) := by
  induction rem generalizing n with
  | nil =>
    cases n with
    | zero => simp [replayN]
    | succ m =>
      cases S with
      | nil => simp [replayN]
      | cons s ss => simp [replayN]
  | cons y ys ih =>
    cases n with
    | zero => simp [replayN]
    | succ m => simp [replayN, ih m, Nat.succ_sub_succ]

theorem replayN_length (S : List T) (hS : S ≠ []) (rem : List T) (n : Nat) :
    (replayN S rem n).length = n := by
  induction n generalizing rem with
  | zero => simp [replayN]
  | succ m ih =>
    cases rem with
    | cons y ys => simp [replayN, ih ys]
    | nil =>
      cases S with
      | nil => exact absurd rfl hS
      | cons s ss => simp [replayN, ih ss]

theorem replayN_self_getD (S : List T) (hS : S ≠ []) (n i : Nat) (d : T) (h : i < n) :
    (replayN S S n).getD i d = S.getD (i % S.length) d := by
  have hL : 0 < S.length := List.length_pos.mpr hS
  rw [replayN_eq_take_append S S n]
  by_cases hi : i < S.length
  · have h1 : i < (S.take n).length := by
      rw [List.length_take]
      omega
    rw [List.getD_append _ _ _ _ h1, Nat.mod_eq_of_lt hi, getD_take_of_lt _ _ _ _ h]
  · have hlen : (S.take n).length = S.length := by
      rw [List.length_take]
      omega
    rw [List.getD_append_right _ _ _ _ (by omega), hlen,
      replayN_self_getD S hS (n - S.length) (i - S.length) d (by omega),
      ← Nat.mod_eq_sub_mod (by omega)]
termination_by n

theorem cycleFirst_eq (rem saved : List T) (n : Nat) :
    cycleFirst rem saved n =
      rem.take n ++ replayN (saved ++ rem) (saved ++ rem) (n - rem.length) := by
  induction rem generalizing saved n with
  | nil =>
    cases n with
    | zero => simp [cycleFirst, replayN]
    | succ m => simp [cycleFirst]
  | cons x xs ih =>
    cases n with
    | zero => simp [cycleFirst, replayN]
    | succ m =>
      rw [cycleFirst, ih (saved ++ [x]) m]
      simp [Nat.succ_sub_succ, List.append_assoc]

/-- C6: for every finite nonempty source S and every k, collecting cycle().take(k)
yields exactly k elements, and the element at position i equals S[i mod len(S)]. -/
theorem cycle_take_spec (S : List T) (hS : S ≠ []) (k : Nat) :
    (cycleTakeCollect S k).length = k ∧
    ∀ (i : Nat) (d : T), i < k →
      (cycleTakeCollect S k).getD i d = S.getD (i % S.length) d := by
  have hL : 0 < S.length := List.length_pos.mpr hS
  have hc : cycleTakeCollect S k = S.take k ++ replayN S S (k - S.length) := by
    rw [cycleTakeCollect, cycleFirst_eq]
    simp
  constructor
  · rw [hc, List.length_append, List.length_take, replayN_length S hS]
    omega
  · intro i d hik
    rw [hc]
    by_cases hi : i < S.length
    · have h1 : i < (S.take k).length := by
        rw [List.length_take]
        omega
      rw [List.getD_append _ _ _ _ h1, Nat.mod_eq_of_lt hi, getD_take_of_lt _ _ _ _ hik]
    · have hlen : (S.take k).length = S.length := by
        rw [List.length_take]
        omega
      rw [List.getD_append_right _ _ _ _ (by omega), hlen,
        replayN_self_getD S hS (k - S.length) (i - S.length) d (by omega),
        ← Nat.mod_eq_sub_mod (by omega)]

/-- C6 witness: cycle_take_spec over S = [1, 2, 3] with k = 7 (the doctest input), read
off at position 5: the yielded list has length 7 and element 5 is S[5 mod 3]. -/
theorem cycle_take_witness :
    (cycleTakeCollect [(1 : Int), 2, 3] 7).length = 7 ∧
    (cycleTakeCollect [(1 : Int), 2, 3] 7).getD 5 0 = [(1 : Int), 2, 3].getD (5 % 3) 0 :=
  ⟨(cycle_take_spec [(1 : Int), 2, 3] (by simp) 7).1,
   (cycle_take_spec [(1 : Int), 2, 3] (by simp) 7).2 5 0 (by omega)⟩

theorem batchByGo_props {K : Type u} [DecidableEq K] (grouper : T → K) (src : List T)
    (key : K) (batch : List T) (hb : batch ≠ []) (hk : ∀ x ∈ batch, grouper x = key) :
    (∀ g ∈ batchByGo grouper src key batch, g ≠ []) ∧
    (∀ g ∈ batchByGo grouper src key batch, ∃ k, ∀ x ∈ g, grouper x = k) ∧
    (batchByGo grouper src key batch).flatten = batch ++ src := by
  induction src generalizing key batch with
  | nil =>
    refine ⟨?_, ?_, ?_⟩
    · intro g hg
      rw [batchByGo, List.mem_singleton] at hg
      subst hg
      exact hb
    · intro g hg
      rw [batchByGo, List.mem_singleton] at hg
      subst hg
      exact ⟨key, hk⟩
    · simp [batchByGo]
  | cons elem rest ih =>
    by_cases h : grouper elem = key
    · have ih2 := ih key (batch ++ [elem]) (by simp)
        (by
          intro x hx
          rcases List.mem_append.mp hx with h1 | h2
          · exact hk x h1
          · rw [List.mem_singleton.mp h2]
            exact h)
      refine ⟨?_, ?_, ?_⟩
      · intro g hg
        rw [batchByGo, if_pos h] at hg
        exact ih2.1 g hg
      · intro g hg
        rw [batchByGo, if_pos h] at hg
        exact ih2.2.1 g hg
      · rw [batchByGo, if_pos h, ih2.2.2]
        simp
    · have ih2 := ih (grouper elem) [elem] (by simp) (by simp)
      refine ⟨?_, ?_, ?_⟩
      · intro g hg
        rw [batchByGo, if_neg h] at hg
        rcases List.mem_cons.mp hg with h1 | h2
        · subst h1
          exact hb
        · exact ih2.1 g h2
      · intro g hg
        rw [batchByGo, if_neg h] at hg
        rcases List.mem_cons.mp hg with h1 | h2
        · subst h1
          exact ⟨key, hk⟩
        · exact ih2.2.1 g h2
      · rw [batchByGo, if_neg h, List.flatten_cons, ih2.2.2]
        simp

theorem batchByGoQ_eq {K : Type u} [DecidableEq K] (grouper : T → K) (src : List T)
    (key : K) (batch : List T) (hb : batch ≠ []) :
    batchByGoQ grouper src key batch = batchByGo grouper src key batch := by
  induction src generalizing key batch with
  | nil => simp [batchByGoQ, batchByGo, List.isEmpty_iff, hb]
  | cons elem rest ih =>
    rw [batchByGoQ, batchByGo]
    by_cases h : grouper elem = key
    · rw [if_pos h, if_pos h, ih key (batch ++ [elem]) (by simp)]
    · rw [if_neg h, if_neg h, ih (grouper elem) [elem] (by simp)]

/-- C9: for every source and key function, the groups produced by batch_by are all
nonempty, within each group all elements map to the same key, and concatenating the
groups in order reconstructs the source; moreover the QList variant (which guards its
final yield with an emptiness test) produces exactly the same groups as the Lazy
variant. -/
theorem batch_by_spec {K : Type u} [DecidableEq K] (grouper : T → K) (src : List T) :
    (∀ g ∈ lazyBatchBy grouper src, g ≠ []) ∧
    (∀ g ∈ lazyBatchBy grouper src, ∃ k, ∀ x ∈ g, grouper x = k) ∧
    (lazyBatchBy grouper src).flatten = src ∧
    qlistBatchBy grouper src = lazyBatchBy grouper src := by
  cases src with
  | nil => exact ⟨by simp [lazyBatchBy], by simp [lazyBatchBy], by simp [lazyBatchBy], rfl⟩
  | cons first rest =>
    have h := batchByGo_props grouper rest (grouper first) [first] (by simp) (by simp)
    refine ⟨?_, ?_, ?_, ?_⟩
    · intro g hg
      exact h.1 g (by simpa [lazyBatchBy] using hg)
    · intro g hg
      exact h.2.1 g (by simpa [lazyBatchBy] using hg)
    · rw [lazyBatchBy, h.2.2]
      rfl
    · rw [qlistBatchBy, lazyBatchBy,
        batchByGoQ_eq grouper rest (grouper first) [first] (by simp)]

/-- C9 witness: batch_by_spec with the identity key over [5, 5, 7]: the group [5, 5] is
nonempty and the groups concatenate back to the source. -/
theorem batch_by_witness :
    ((5 : Int) :: [5]) ≠ [] ∧
    (lazyBatchBy (fun x : Int => x) [5, 5, 7]).flatten = [5, 5, 7] :=
  ⟨(batch_by_spec (fun x : Int => x) [5, 5, 7]).1 [5, 5] (by decide),
   (batch_by_spec (fun x : Int => x) [5, 5, 7]).2.2.1⟩

theorem fullFlatten_append (bs : Bool) (pt : Option PyTy) (l1 l2 : List PyVal) :
    fullFlatten bs pt (l1 ++ l2) = fullFlatten bs pt l1 ++ fullFlatten bs pt l2 := by
  induction l1 with
  | nil => simp [fullFlatten]
  | cons x xs ih =>
    cases x <;> simp only [List.cons_append, fullFlatten, ih, List.append_assoc]

theorem fullFlatten_empty_str_head (rest : List PyVal) :
    fullFlatten true none (PyVal.str [] :: rest) = fullFlatten true none rest ∧
    fullFlatten false none (PyVal.str [] :: rest) =
      PyVal.str [] :: fullFlatten false none rest ∧
    fullFlatten true (some PyTy.str) (PyVal.str [] :: rest) =
      PyVal.str [] :: fullFlatten true (some PyTy.str) rest := by
  refine ⟨?_, ?_, ?_⟩ <;>
    rw [fullFlatten] <;>
    simp [pyPreserves, pyIsinstance, fullFlattenStr]

/-- C10: full_flatten with default options (break_str true, no preserve_type) silently
drops an empty-string element anywhere in the sequence, while with break_str false, or
with preserve_type matching strings, the empty string is passed through whole. -/
theorem full_flatten_empty_str_spec (l1 l2 : List PyVal) :
    fullFlatten true none (l1 ++ PyVal.str [] :: l2) =
      fullFlatten true none l1 ++ fullFlatten true none l2 ∧
    fullFlatten false none (l1 ++ PyVal.str [] :: l2) =
      fullFlatten false none l1 ++ PyVal.str [] :: fullFlatten false none l2 ∧
    fullFlatten true (some PyTy.str) (l1 ++ PyVal.str [] :: l2) =
      fullFlatten true (some PyTy.str) l1 ++
        PyVal.str [] :: fullFlatten true (some PyTy.str) l2 := by
  refine ⟨?_, ?_, ?_⟩
  · rw [fullFlatten_append, (fullFlatten_empty_str_head l2).1]
  · rw [fullFlatten_append, (fullFlatten_empty_str_head l2).2.1]
  · rw [fullFlatten_append, (fullFlatten_empty_str_head l2).2.2]

end QwSpec

namespace QwSpec

/-- C1 counterexample input is formalised through these theorems below; first the helper
lemma describing takeRun completely. -/
theorem takeRun_eq (n : Int) (src : List T) (i : Int) :
    takeRun n src i = (src.take (n - i).toNat, min ((n - i).toNat + 1) src.length) := by
  induction src generalizing i with
  | nil => simp [takeRun]
  | cons x xs ih =>
    rw [takeRun]
    by_cases h : n ≤ i
    · have h0 : (n - i).toNat = 0 := by omega
      simp [h, h0]
    · have h1 : (n - i).toNat = (n - (i + 1)).toNat + 1 := by omega
      simp only [if_neg h, ih (i + 1)]
      rw [h1, List.take_succ_cons, List.length_cons, Prod.mk.injEq]
      exact ⟨rfl, (Nat.succ_min_succ _ _).symm⟩

theorem takeCollect_eq (n : Int) (src : List T) :
    takeCollect n src = src.take n.toNat := by
  have h : (n - 0).toNat = n.toNat := by omega
  simp [takeCollect, takeRun_eq, h]

theorem takePulled_eq (n : Int) (src : List T) :
    takePulled n src = min (n.toNat + 1) src.length := by
  have h : (n - 0).toNat = n.toNat := by omega
  simp [takePulled, takeRun_eq, h]

/-- C1: the claim states that collecting take(n) never advances the underlying source by
more than n elements.  This is false: with n = 0 over the one-element source [0], the
generator pulls one element before testing the index cut-off, so the source advances by
1 > 0. -/
theorem take_over_pull_cex : ¬ ((takePulled 0 [(0 : Int)] : Int) ≤ 0) := by
  decide

/-- C1 (amended): take(n) yields the first n elements of the source (or fewer if the
source is exhausted first) and yields nothing when n <= 0; however, collecting take(n)
advances the underlying source by min(max(n,0) + 1, len(S)) elements — one more than n
whenever the source is longer than n, because the loop pulls the (n+1)-st element before
testing the index cut-off. -/
theorem take_spec (n : Int) (src : List T) :
    takeCollect n src = src.take n.toNat ∧
    (n ≤ 0 → takeCollect n src = []) ∧
    takePulled n src = min (n.toNat + 1) src.length := by
  refine ⟨takeCollect_eq n src, ?_, takePulled_eq n src⟩
  intro hn
  have h0 : n.toNat = 0 := by omega
  simp [takeCollect_eq, h0]

/-- C1 witness: take_spec applied at n = -1 over the source [5, 6]. -/
theorem take_spec_witness :
    takeCollect (-1 : Int) [(5 : Int), 6] = [] ∧
    takePulled (-1 : Int) [(5 : Int), 6] = min ((-1 : Int).toNat + 1) 2 :=
  ⟨(take_spec (-1) [(5 : Int), 6]).2.1 (by decide),
   (take_spec (-1) [(5 : Int), 6]).2.2⟩

theorem lazyGetScan_eq (index : Nat) (d : Option T) (l : List T) (j : Nat)
    (hj : j ≤ index) :
    lazyGetScan index d l j =
      match l.get? (index - j) with
      | some x => some x
      | none => d := by
  induction l generalizing j with
  | nil => simp [lazyGetScan]
  | cons x xs ih =>
    rw [lazyGetScan]
    by_cases h : j = index
    · subst h
      simp
    · have hj1 : j + 1 ≤ index := by omega
      have hsub : index - j = (index - (j + 1)) + 1 := by omega
      rw [if_neg h, ih (j + 1) hj1, hsub]
      simp

/-- C8 counterexample: the claim states that the eager variant treats a negative index as
counting from the end, so that get(-1) on [1, 2, 3] would return 3.  The code returns the
default for every negative index. -/
theorem eager_get_negative_cex :
    ¬ (eagerGet [(1 : Int), 2, 3] (-1) none = some 3) := by
  decide

/-- C8 (amended): every variant — EagerQList.get, QList.get and Lazy.get — returns the
default for every negative index; for non-negative indices all three agree, returning the
element at the index when it is within bounds and the default otherwise. -/
theorem get_spec (l : List T) (index : Int) (d : Option T) :
    eagerGet l index d = lazyGet l index d ∧
    qlistGet l index d = eagerGet l index d ∧
    (index < 0 → eagerGet l index d = d) := by
  refine ⟨?_, rfl, ?_⟩
  · by_cases hneg : index < 0
    · simp [eagerGet, lazyGet, hneg]
    · have h0 : (0 : Int) ≤ index := by omega
      rw [eagerGet, lazyGet, if_neg hneg,
        lazyGetScan_eq index.toNat d l 0 (Nat.zero_le _)]
      by_cases hb : (l.length : Int) ≤ index
      · have : l.length ≤ index.toNat := by omega
        rw [if_pos (Or.inr hb)]
        rw [List.get?_eq_none.mpr (by omega)]
      · have hlt : index.toNat < l.length := by omega
        rw [if_neg (by omega), Nat.sub_zero, List.get?_eq_get hlt]
  · intro hneg
    simp [eagerGet, hneg]

/-- C8 witness: get_spec applied at index -1 over [1, 2, 3] with default none. -/
theorem get_spec_witness :
    eagerGet [(1 : Int), 2, 3] (-1) none = lazyGet [(1 : Int), 2, 3] (-1) none ∧
    eagerGet [(1 : Int), 2, 3] (-1) none = none :=
  ⟨(get_spec [(1 : Int), 2, 3] (-1) none).1,
   (get_spec [(1 : Int), 2, 3] (-1) none).2.2 (by decide)⟩

/-- C3 counterexample: the claim states that sum() on an empty lazy sequence raises an
empty-input condition rather than returning the none sentinel.  The code has no raise
path: on the empty source it returns the sentinel (modelled as .ok none), exactly like
the eager variant. -/
theorem lazy_sum_empty_cex : lazySum ([] : List Int) = Except.ok none := by
  rfl

/-- C3 (amended): sum() on the lazy variant returns the none sentinel on an empty source
— it never raises — and behaves identically to the eager variant: both return .ok none
exactly on empty input and the head-seeded fold of addition otherwise. -/
theorem sum_spec {A : Type u} [Add A] (l : List A) :
    lazySum l = eagerSum l ∧
    (lazySum l = Except.ok none ↔ l = []) ∧
    ∀ e : String, lazySum l ≠ Except.error e := by
  cases l with
  | nil => simp [lazySum, eagerSum]
  | cons x xs => simp [lazySum, eagerSum]

/-- C3 witness: sum_spec applied to the empty Int list and to [1, 2, 3]. -/
theorem sum_spec_witness :
    lazySum ([] : List Int) = eagerSum ([] : List Int) ∧
    (lazySum ([] : List Int) = Except.ok none ↔ ([] : List Int) = []) ∧
    lazySum [(1 : Int), 2, 3] = eagerSum [(1 : Int), 2, 3] :=
  ⟨(sum_spec ([] : List Int)).1, (sum_spec ([] : List Int)).2.1,
   (sum_spec [(1 : Int), 2, 3]).1⟩

theorem isInterleave_nil_left (b : List T) : IsInterleave [] b b := by
  induction b with
  | nil => exact .nil
  | cons y ys ih => exact .right ih

theorem isInterleave_nil_right (a : List T) : IsInterleave a [] a := by
  induction a with
  | nil => exact .nil
  | cons x xs ih => exact .left ih

theorem IsInterleave.length_eq {a b c : List T} (h : IsInterleave a b c) :
    c.length = a.length + b.length := by
  induction h with
  | nil => rfl
  | left _ ih => simp [ih]; omega
  | right _ ih => simp [ih]; omega

theorem mergeInner_interleave (m : T → T → Bool) (left right : T) (it1 it2 : List T) :
    IsInterleave (left :: it1) (right :: it2) (mergeInner m left right it1 it2) := by
  rw [mergeInner.eq_def]
  split
  · cases it1 with
    | nil => exact .left (isInterleave_nil_left _)
    | cons x xs => exact .left (mergeInner_interleave m x right xs it2)
  · cases it2 with
    | nil => exact .right (isInterleave_nil_right _)
    | cons y ys => exact .right (mergeInner_interleave m left y it1 ys)
termination_by it1.length + it2.length

/-- C5: for all finite sequences a and b and every comparison function, draining
merge(a, b, cmp) produces an interleaving of a and b — preserving the relative order of
the elements of each side — whose length is len(a) + len(b). -/
theorem merge_interleave_spec (m : T → T → Bool) (a b : List T) :
    IsInterleave a b (mergeDrain m a b) ∧
    (mergeDrain m a b).length = a.length + b.length := by
  have h : IsInterleave a b (mergeDrain m a b) := by
    cases a with
    | nil => exact isInterleave_nil_left b
    | cons a1 arest =>
      cases b with
      | nil => exact isInterleave_nil_right (a1 :: arest)
      | cons b1 brest => exact mergeInner_interleave m a1 b1 arest brest
  exact ⟨h, h.length_eq⟩

/-- C2 counterexample: the claim states that invoking merge(other, cmp) pulls no element
from either side until a terminal operation drives evaluation.  In fact the method body
pulls the first element of the receiver and of other before returning: on the one-element
sources [1] and [2] the call itself consumes one element from each. -/
theorem merge_call_pulls_cex :
    ¬ (mergeCallConsumed [(1 : Int)] [(2 : Int)] = (0, 0)) := by
  decide

/-- C2 (amended): chainable operators such as filter perform no work at call time — the
source is untouched until a terminal operation — but merge is an exception: at call time
it eagerly pulls the first element of the receiver (when nonempty) and then the first
element of other (when the receiver was nonempty and other is nonempty), holding them as
look-ahead for the deferred generator. -/
theorem call_time_spec (p : T → Bool) (a b : List T) :
    filterCallRemaining p a = a ∧
    mergeCallConsumed a b =
      (min 1 a.length, if a.isEmpty then 0 else min 1 b.length) := by
  refine ⟨rfl, ?_⟩
  cases a with
  | nil => simp [mergeCallConsumed, mergeCall]
  | cons a1 arest =>
    cases b with
    | nil => simp [mergeCallConsumed, mergeCall]
    | cons b1 brest => simp [mergeCallConsumed, mergeCall]

/-- C4: batch(size) with size <= 0 and window(window_size) with window_size <= 0 fail at
call time with the AssertionError carried by the assert statement, before any element is
pulled (the failure is identical for any source, and on success the source is returned
untouched); with positive arguments no failure occurs. -/
theorem batch_window_call_spec (size wsize : Int) (src src2 : List T) :
    (size ≤ 0 → ∃ msg, lazyBatchCall size src = Except.error msg ∧
      lazyBatchCall size src2 = Except.error msg) ∧
    (0 < size → lazyBatchCall size src = Except.ok src) ∧
    (wsize ≤ 0 → ∃ msg, lazyWindowCall wsize src = Except.error msg ∧
      lazyWindowCall wsize src2 = Except.error msg) ∧
    (0 < wsize → lazyWindowCall wsize src = Except.ok src) := by
  refine ⟨fun h => ?_, fun h => ?_, fun h => ?_, fun h => ?_⟩
  · exact ⟨_, by rw [lazyBatchCall, if_neg (by omega)],
      by rw [lazyBatchCall, if_neg (by omega)]⟩
  · rw [lazyBatchCall, if_pos (by omega)]
  · exact ⟨_, by rw [lazyWindowCall, if_neg (by omega)],
      by rw [lazyWindowCall, if_neg (by omega)]⟩
  · rw [lazyWindowCall, if_pos (by omega)]

/-- C4 witness: batch_window_call_spec applied at size 0 and window size -1 over the
sources [1] and [2, 3], and at positive sizes over [1]. -/
theorem batch_window_call_witness :
    (∃ msg, lazyBatchCall 0 [(1 : Int)] = Except.error msg ∧
      lazyBatchCall 0 [(2 : Int), 3] = Except.error msg) ∧
    lazyBatchCall 2 [(1 : Int)] = Except.ok [(1 : Int)] ∧
    (∃ msg, lazyWindowCall (-1) [(1 : Int)] = Except.error msg ∧
      lazyWindowCall (-1) [(2 : Int), 3] = Except.error msg) ∧
    lazyWindowCall 1 [(1 : Int)] = Except.ok [(1 : Int)] :=
  ⟨(batch_window_call_spec 0 (-1) [(1 : Int)] [(2 : Int), 3]).1 (by omega),
   (batch_window_call_spec 2 1 [(1 : Int)] [(2 : Int), 3]).2.1 (by omega),
   (batch_window_call_spec 0 (-1) [(1 : Int)] [(2 : Int), 3]).2.2.1 (by omega),
   (batch_window_call_spec 2 1 [(1 : Int)] [(2 : Int), 3]).2.2.2 (by omega)⟩

theorem lazyBatchGo_flatten (size : Int) (src : List T) (group : List T) (i : Int) :
    (lazyBatchGo size src group i).flatten = group ++ src := by
  induction src generalizing group i with
  | nil =>
    rw [lazyBatchGo]
    by_cases h : group.isEmpty
    · simp [h, List.isEmpty_iff.mp h]
    · simp [h]
  | cons x xs ih =>
    rw [lazyBatchGo]
    by_cases h : i % size = 0
    · simp [h, ih]
    · simp [h, ih]

theorem qlistBatchDrain_flatten (size : Int) (h : 0 < size) :
    ∀ src : List T, (qlistBatchDrain size src).flatten = src
  | [] => by simp [qlistBatchDrain]
  | x :: xs => by
    rw [qlistBatchDrain, if_neg (by omega)]
    rw [List.flatten_cons, qlistBatchDrain_flatten size h ((x :: xs).drop size.toNat)]
    exact List.take_append_drop _ _
termination_by src => src.length
decreasing_by simp [List.length_drop]; omega

/-- C7: for every finite sequence and every size > 0, concatenating all batches produced
by batch(size) via flatmap with the identity function reconstructs the sequence exactly;
this holds for both the Lazy.batch generator and the slice-based QList.batch. -/
theorem batch_flatmap_id_spec (size : Int) (src : List T) (h : 0 < size) :
    lazyFlatmap id (lazyBatchDrain size src) = src ∧
    lazyFlatmap id (qlistBatchDrain size src) = src := by
  constructor
  · rw [lazyFlatmap, List.flatMap_id, lazyBatchDrain, lazyBatchGo_flatten]
    rfl
  · rw [lazyFlatmap, List.flatMap_id, qlistBatchDrain_flatten size h src]

/-- C7 witness: batch_flatmap_id_spec applied at size 2 over [0, 1, 2, 3, 4]. -/
theorem batch_flatmap_id_witness :
    lazyFlatmap id (lazyBatchDrain 2 [(0 : Int), 1, 2, 3, 4]) = [0, 1, 2, 3, 4] ∧
    lazyFlatmap id (qlistBatchDrain 2 [(0 : Int), 1, 2, 3, 4]) = [0, 1, 2, 3, 4] :=
  batch_flatmap_id_spec 2 [(0 : Int), 1, 2, 3, 4] (by omega)

end QwSpec
